import Mathlib

/-!
Formal model of the czech-file-knife offline cache engine.

This file gives a shallow embedding, in Lean 4, of the parts of the
repository that the verified properties talk about:

* the virtual path type (src/cfk-core/src/path.rs),
* the unified error type (src/cfk-core/src/error.rs),
* the content-addressed blob store (src/cfk-cache/src/blob_store.rs),
* the eviction policy engine (src/cfk-cache/src/policy.rs),
* the metadata cache (src/cfk-cache/src/metadata_cache.rs).

Modelling conventions:

* Rust String / str values are modelled as lists of characters; byte
  buffers (Bytes, Vec<u8>) as lists of natural numbers (each < 256 in
  intended use; no claim depends on the bound).
* chrono DateTime<Utc> instants are modelled as integers counting whole
  seconds; chrono signed durations in seconds become integer differences.
* HashMap values are modelled as association lists whose key column is
  duplicate-free; the list order models the (arbitrary) iteration order
  of the map.  sled trees are likewise modelled as association lists.
* u64 / usize arithmetic is modelled over Nat; subtraction in the source
  is saturating_sub, which truncated Nat subtraction models exactly.
* f64 arithmetic (the target_utilization computations) is modelled as
  exact rational arithmetic; the f64-to-u64 conversion of a nonnegative
  value truncates toward zero, modelled as the natural floor.
* the BLAKE3 hash (external crate) is an abstract parameter of the blob
  store model; LZ4 block compression (external crate lz4_flex) is an
  abstract parameter on the compression side, while the size-prepended
  LZ4 decoder is modelled concretely from the documented block format.
* async functions have no internal suspension the properties can see, so
  they are modelled as pure state transformers.
-/

namespace Cfk

/-- Rust string slices and owned strings, modelled as lists of characters. -/
abbrev RStr := List Char

/-- Helper for splitChar: prepend a character to the first field of a split
result. -/
def consHead (x : Char) : List RStr → List RStr
  | [] => [[x]]
  | g :: gs => (x :: g) :: gs

/-- Model of Rust str::split on a single separator character.  Splitting the
empty string yields one empty field, and every separator occurrence opens a
new field, exactly as in Rust. -/
def splitChar (c : Char) : RStr → List RStr
  | [] => [[]]
  | x :: xs =>
    if x = c then [] :: splitChar c xs
    else consHead x (splitChar c xs)

/-- Model of Rust str::split_once on a character: splits at the first
occurrence, returning the parts before and after it, or none. -/
def splitOnce (c : Char) : RStr → Option (RStr × RStr)
  | [] => none
  | x :: xs =>
    if x = c then some ([], xs)
    else (splitOnce c xs).map (fun p => (x :: p.1, p.2))

/-- Model of Rust str::strip_prefix: strips pat from the front of the string
when it is there, otherwise none. -/
def stripPref : RStr → RStr → Option RStr
  | [], s => some s
  | _ :: _, [] => none
  | p :: ps, x :: xs => if x = p then stripPref ps xs else none

/-- Model of joining string segments with a separator character (the string
form produced by Rust slice join with a one-character separator). -/
def joinSep (c : Char) : List RStr → RStr
  | [] => []
  | [s] => s
  | s :: rest => s ++ c :: joinSep c rest

/-- Model of Rust str::starts_with for the sled prefix scans: hasPref p s is
true when p is an initial run of s. -/
def hasPref : RStr → RStr → Bool
  | [], _ => true
  | _ :: _, [] => false
  | p :: ps, x :: xs => x = p && hasPref ps xs

/-- VirtualPath from src/cfk-core/src/path.rs: a backend identifier together
with the ordered path segments. -/
structure VirtualPath where
  backend : RStr
  segments : List RStr
deriving DecidableEq

namespace VirtualPath

/-- VirtualPath::new: split the path string on slashes and drop the empty
segments. -/
def new (backend : RStr) (path : RStr) : VirtualPath :=
  { backend := backend
    segments := (splitChar '/' path).filter (fun s => !s.isEmpty) }

/-- VirtualPath::root: a path with no segments. -/
def root (backend : RStr) : VirtualPath :=
  { backend := backend, segments := [] }

/-- VirtualPath::to_path_string: a lone slash at the root, otherwise a slash
followed by the slash-joined segments. -/
def to_path_string (p : VirtualPath) : RStr :=
  if p.segments.isEmpty then ['/'] else '/' :: joinSep '/' p.segments

/-- VirtualPath::to_uri: the scheme, the backend, then the path string.  The
Display form of a VirtualPath is exactly this URI. -/
def to_uri (p : VirtualPath) : RStr :=
  "cfk://".data ++ p.backend ++ p.to_path_string

/-- VirtualPath::parse_uri: require the scheme, split the remainder at the
first slash into backend and path (the whole remainder is the backend when
no slash is present), and build the path with VirtualPath::new. -/
def parse_uri (uri : RStr) : Option VirtualPath :=
  match stripPref "cfk://".data uri with
  | none => none
  | some rest =>
    let bp := (splitOnce '/' rest).getD (rest, [])
    some (new bp.1 bp.2)

end VirtualPath

/-- CfkError from src/cfk-core/src/error.rs.  The ioErr variant models
Io(std::io::Error) and carries the error message; all other payloads are
carried as in the source. -/
inductive CfkError where
  | notFound (s : RStr)
  | alreadyExists (s : RStr)
  | permissionDenied (s : RStr)
  | notADirectory (s : RStr)
  | notAFile (s : RStr)
  | directoryNotEmpty (s : RStr)
  | invalidPath (s : RStr)
  | ioErr (s : RStr)
  | network (s : RStr)
  | authRequired (s : RStr)
  | authFailed (s : RStr)
  | tokenExpired
  | rateLimited (retry_after_secs : Option Nat)
  | providerApi (provider : RStr) (message : RStr)
  | quotaExceeded (s : RStr)
  | conflict (s : RStr)
  | unsupported (s : RStr)
  | serialization (s : RStr)
  | cache (s : RStr)
  | backendNotFound (s : RStr)
  | offlineNoCache
  | checksumMismatch
  | timeout
  | cancelled
  | other (s : RStr)
deriving DecidableEq

/-- CfkError::is_retryable: the matches! over Network, RateLimited, Timeout
and TokenExpired. -/
def CfkError.is_retryable : CfkError → Bool
  | .network _ => true
  | .rateLimited _ => true
  | .timeout => true
  | .tokenExpired => true
  | _ => false

/-- ContentId from src/cfk-cache/src/blob_store.rs: a 32-byte BLAKE3 digest,
modelled as a list of byte values.  The fixed length and the byte range are
not enforced by the model because no verified property depends on them. -/
structure ContentId where
  bytes : List Nat
deriving DecidableEq

/-- CacheEntryInfo from src/cfk-cache/src/policy.rs: per-entry accounting
data for eviction decisions.  Timestamps are whole seconds. -/
structure CacheEntryInfo where
  content_id : ContentId
  size : Nat
  last_accessed : Int
  access_count : Nat
  created : Int
  priority : Int
deriving DecidableEq

/-- CacheEntryInfo::new at a given instant: initial access count one, both
timestamps now, priority zero. -/
def CacheEntryInfo.new (now : Int) (content_id : ContentId) (size : Nat) :
    CacheEntryInfo :=
  { content_id := content_id, size := size, last_accessed := now
    access_count := 1, created := now, priority := 0 }

/-- CacheEntryInfo::touch at a given instant: refresh last_accessed and
increment access_count. -/
def CacheEntryInfo.touch (now : Int) (e : CacheEntryInfo) : CacheEntryInfo :=
  { e with last_accessed := now, access_count := e.access_count + 1 }

/-- EvictionPolicy from src/cfk-cache/src/policy.rs. -/
inductive EvictionPolicy where
  | Lru
  | Lfu
  | Fifo
  | LargestFirst
  | SmallestFirst
  | Adaptive
deriving DecidableEq

/-- PolicyConfig from src/cfk-cache/src/policy.rs.  target_utilization is an
f64 in the source, modelled as an exact rational. -/
structure PolicyConfig where
  max_size : Nat
  max_entries : Nat
  policy : EvictionPolicy
  target_utilization : ℚ
  min_ttl : Int

/-- CachePolicy state: the configuration, the entries map (an association
list keyed by content_id, in iteration order) and the running total size. -/
structure CachePolicy where
  config : PolicyConfig
  entries : List CacheEntryInfo
  total_size : Nat

/-- CachePolicy::new: empty entries map, zero total size. -/
def CachePolicy.new (config : PolicyConfig) : CachePolicy :=
  { config := config, entries := [], total_size := 0 }

/-- Content ids of an entries list, in order. -/
@[reducible] def cids (l : List CacheEntryInfo) : List ContentId :=
  l.map (fun e => e.content_id)

/-- Sum of the size fields of an entries list. -/
def sumSizes (l : List CacheEntryInfo) : Nat :=
  (l.map (fun e => e.size)).sum

/-- HashMap::insert on the association-list model: replace the entry with
the same key in place, or append at the end. -/
def insertInfo (info : CacheEntryInfo) : List CacheEntryInfo → List CacheEntryInfo
  | [] => [info]
  | e :: rest =>
    if e.content_id == info.content_id then info :: rest
    else e :: insertInfo info rest

/-- HashMap lookup on the association-list model: the first entry carrying
the key, if any. -/
def findCid (cid : ContentId) : List CacheEntryInfo → Option CacheEntryInfo
  | [] => none
  | e :: rest => if e.content_id == cid then some e else findCid cid rest

/-- HashMap::remove on the association-list model: drop the first entry
carrying the key. -/
def eraseCid (cid : ContentId) : List CacheEntryInfo → List CacheEntryInfo
  | [] => []
  | e :: rest => if e.content_id == cid then rest else e :: eraseCid cid rest

/-- CachePolicy::record_add: unconditionally add the new size to total_size,
then insert the info under its content id (replacing any entry already
stored under that id). -/
def CachePolicy.record_add (st : CachePolicy) (info : CacheEntryInfo) :
    CachePolicy :=
  { st with total_size := st.total_size + info.size
            entries := insertInfo info st.entries }

/-- CachePolicy::record_access: touch the entry stored under the id, if any.
The map touches every entry carrying the id; on a duplicate-free key column
this is exactly HashMap::get_mut followed by touch. -/
def CachePolicy.record_access (st : CachePolicy) (now : Int) (cid : ContentId) :
    CachePolicy :=
  { st with entries :=
      st.entries.map (fun e => if e.content_id == cid then e.touch now else e) }

/-- CachePolicy::record_remove: remove the entry stored under the id, if
any, and subtract its size from total_size, saturating at zero. -/
def CachePolicy.record_remove (st : CachePolicy) (cid : ContentId) :
    CachePolicy :=
  match findCid cid st.entries with
  | some e =>
    { st with entries := eraseCid cid st.entries
              total_size := st.total_size - e.size }
  | none => st

/-- CachePolicy::needs_eviction: either budget strictly exceeded. -/
def CachePolicy.needs_eviction (st : CachePolicy) : Bool :=
  decide (st.config.max_size < st.total_size) ||
    decide (st.config.max_entries < st.entries.length)

/-- EvictionResult from src/cfk-cache/src/policy.rs. -/
structure EvictionResult where
  evicted : List ContentId
  size_freed : Nat
  count : Nat

/-- Stable insertion into a sorted list: walk past every element that is
strictly before the new one, so equal elements keep their original relative
order. -/
def stableInsert (lt : α → α → Bool) (a : α) : List α → List α
  | [] => [a]
  | b :: l => if lt b a then b :: stableInsert lt a l else a :: b :: l

/-- Stable sort by a strict-less comparator.  Rust's slice sort_by is
stable, and a stable sort by a total preorder comparator has a unique
result, so insertion sort models it exactly. -/
def stableSortBy (lt : α → α → Bool) : List α → List α
  | [] => []
  | a :: l => stableInsert lt a (stableSortBy lt l)

/-- Strict-less comparator of the sort_by match in select_evictions.  The
Adaptive arm's f64 score (a transcendental mix of age, frequency, size and
priority evaluated at the current instant) is abstracted as a rational-valued
parameter; no verified property depends on its value. -/
def policyLess (pol : EvictionPolicy) (adaptiveScore : CacheEntryInfo → ℚ)
    (a b : CacheEntryInfo) : Bool :=
  match pol with
  | .Lru => decide (a.last_accessed < b.last_accessed)
  | .Lfu => decide (a.access_count < b.access_count)
  | .Fifo => decide (a.created < b.created)
  | .LargestFirst => decide (b.size < a.size)
  | .SmallestFirst => decide (a.size < b.size)
  | .Adaptive => decide (adaptiveScore a < adaptiveScore b)

/-- Selection loop of select_evictions: before each candidate, stop once
both the size target and the count target are met; otherwise take the
candidate and accumulate. -/
def selectInfos (sizeToFree entriesToFree : Nat) :
    Nat → Nat → List CacheEntryInfo → List CacheEntryInfo
  | _, _, [] => []
  | freed, cnt, cand :: rest =>
    if sizeToFree ≤ freed ∧ entriesToFree ≤ cnt then []
    else cand :: selectInfos sizeToFree entriesToFree (freed + cand.size) (cnt + 1) rest

/-- Eviction candidates of select_evictions: the entries at least min_ttl
seconds old, sorted stably by the configured policy's comparator. -/
def CachePolicy.selectCandidates (adaptiveScore : CacheEntryInfo → ℚ)
    (now : Int) (st : CachePolicy) : List CacheEntryInfo :=
  stableSortBy (policyLess st.config.policy adaptiveScore)
    (st.entries.filter (fun e => decide (st.config.min_ttl ≤ now - e.created)))

/-- Selection of select_evictions, parameterised by the two already-computed
post-eviction targets: free down to them by walking the sorted candidates. -/
def CachePolicy.selectInfosWith (adaptiveScore : CacheEntryInfo → ℚ)
    (now : Int) (st : CachePolicy) (targetSize targetEntries : Nat) :
    List CacheEntryInfo :=
  selectInfos (st.total_size - targetSize) (st.entries.length - targetEntries)
    0 0 (st.selectCandidates adaptiveScore now)

/-- Candidate selection of CachePolicy::select_evictions: the post-eviction
targets are the budgets scaled by target_utilization (f64 products modelled
as rational products truncated to naturals). -/
def CachePolicy.selectInfosOf (adaptiveScore : CacheEntryInfo → ℚ) (now : Int)
    (st : CachePolicy) : List CacheEntryInfo :=
  st.selectInfosWith adaptiveScore now
    ⌊(st.config.max_size : ℚ) * st.config.target_utilization⌋₊
    ⌊(st.config.max_entries : ℚ) * st.config.target_utilization⌋₊

/-- CachePolicy::select_evictions: nothing under no pressure, otherwise the
content ids of the selected candidates together with the freed size and the
count. -/
def CachePolicy.select_evictions (adaptiveScore : CacheEntryInfo → ℚ)
    (now : Int) (st : CachePolicy) : EvictionResult :=
  if st.needs_eviction then
    let sel := st.selectInfosOf adaptiveScore now
    { evicted := sel.map (fun e => e.content_id)
      size_freed := sumSizes sel
      count := sel.length }
  else
    { evicted := [], size_freed := 0, count := 0 }

/-- Accounting operations of the policy engine, for reachability statements:
an add, an access at some instant, or a removal. -/
inductive PolicyOp where
  | add (info : CacheEntryInfo)
  | access (now : Int) (cid : ContentId)
  | remove (cid : ContentId)

/-- Apply one accounting operation. -/
def CachePolicy.applyOp (st : CachePolicy) : PolicyOp → CachePolicy
  | .add info => st.record_add info
  | .access now cid => st.record_access now cid
  | .remove cid => st.record_remove cid

/-- Run a sequence of accounting operations from a fresh CachePolicy::new. -/
def runOps (config : PolicyConfig) (ops : List PolicyOp) : CachePolicy :=
  ops.foldl CachePolicy.applyOp (CachePolicy.new config)

/-- A trace has fresh adds when every record_add call carries a content id
that is not in the entries map at the time of the call. -/
def freshAddsB : CachePolicy → List PolicyOp → Bool
  | _, [] => true
  | st, op :: rest =>
    (match op with
      | .add info => decide (info.content_id ∉ cids st.entries)
      | _ => true) && freshAddsB (st.applyOp op) rest

/-- Formalisation of the LFU tie-break clause of the claim: along the victim
list, whenever two victims resolve to entries with equal access_count, the
earlier victim's last_accessed is at most the later victim's. -/
def olderFirstOnTies (entries : List CacheEntryInfo) (victims : List ContentId) :
    Prop :=
  List.Pairwise (fun c d =>
    ∀ a ∈ entries, ∀ b ∈ entries, a.content_id = c → b.content_id = d →
      a.access_count = b.access_count → a.last_accessed ≤ b.last_accessed) victims

/-- Concrete LFU state for the tie-break refutation: two eligible entries
with equal access_count, the one with the newer last_accessed ahead in
iteration order, under entry-count pressure. -/
def lfuTieState : CachePolicy :=
  { config :=
      { max_size := 100, max_entries := 0, policy := .Lfu
        target_utilization := 1, min_ttl := 0 }
    entries :=
      [ { content_id := ⟨[1]⟩, size := 1, last_accessed := 10
          access_count := 5, created := 0, priority := 0 }
      , { content_id := ⟨[2]⟩, size := 1, last_accessed := 3
          access_count := 5, created := 0, priority := 0 } ]
    total_size := 2 }

/-- Concrete configuration for the accounting counterexample. -/
def dupAddConfig : PolicyConfig :=
  { max_size := 1000, max_entries := 10, policy := .Lru
    target_utilization := 9 / 10, min_ttl := 0 }

/-- Concrete trace adding the same content id twice with sizes 5 and 7. -/
def dupAddTrace : List PolicyOp :=
  [ .add { content_id := ⟨[1]⟩, size := 5, last_accessed := 0
           access_count := 1, created := 0, priority := 0 }
  , .add { content_id := ⟨[1]⟩, size := 7, last_accessed := 0
           access_count := 1, created := 0, priority := 0 } ]

/-- Concrete over-budget Lru state for the convergence witness: two entries
of size 6 against a byte budget of 10. -/
def convState : CachePolicy :=
  { config :=
      { max_size := 10, max_entries := 10, policy := .Lru
        target_utilization := 9 / 10, min_ttl := 0 }
    entries :=
      [ { content_id := ⟨[1]⟩, size := 6, last_accessed := 1
          access_count := 1, created := 0, priority := 0 }
      , { content_id := ⟨[2]⟩, size := 6, last_accessed := 2
          access_count := 1, created := 0, priority := 0 } ]
    total_size := 12 }

/-- Concrete trace whose record_add calls all carry fresh content ids. -/
def freshTrace : List PolicyOp :=
  [ .add { content_id := ⟨[1]⟩, size := 5, last_accessed := 0
           access_count := 1, created := 0, priority := 0 }
  , .add { content_id := ⟨[2]⟩, size := 7, last_accessed := 0
           access_count := 1, created := 0, priority := 0 }
  , .access 10 ⟨[1]⟩
  , .remove ⟨[2]⟩ ]

/-- Modelled from the spec: the cfk-cache unified error type (CacheError);
its Rust definition is not under src/, only its uses are.  Spec section 7
enumerates the kinds; only the variants the modelled operations construct
appear here, and their message payloads are abstracted to empty strings. -/
inductive CacheError where
  | ioError (msg : RStr)
  | notFound (s : RStr)
  | corruptedContent (s : RStr)
  | invalidContentId
  | database (msg : RStr)
  | serializationError (msg : RStr)
deriving DecidableEq

/-- Decidable equality on Except, for evaluating modelled results at
concrete inputs. -/
instance {eps alpha : Type} [DecidableEq eps] [DecidableEq alpha] :
    DecidableEq (Except eps alpha) := fun x y =>
  match x, y with
  | .error e1, .error e2 =>
    if h : e1 = e2 then .isTrue (congrArg Except.error h)
    else .isFalse (fun hx => h (by cases hx; rfl))
  | .ok a1, .ok a2 =>
    if h : a1 = a2 then .isTrue (congrArg Except.ok h)
    else .isFalse (fun hx => h (by cases hx; rfl))
  | .error _, .ok _ => .isFalse (fun hx => Except.noConfusion hx)
  | .ok _, .error _ => .isFalse (fun hx => Except.noConfusion hx)

/-- Little-endian 4-byte encoding of a length, as prepended by lz4_flex
compress_prepend_size (lengths in scope are far below 2^32). -/
def u32le (n : Nat) : List Nat :=
  [n % 256, n / 256 % 256, n / 65536 % 256, n / 16777216 % 256]

/-- lz4_flex compress_prepend_size, parameterised by the LZ4 block
compressor (external library code, left abstract): the input length as a
4-byte little-endian prefix followed by the block-compressed payload. -/
def compressPrependSize (lz4Block : List Nat → List Nat) (data : List Nat) :
    List Nat :=
  u32le data.length ++ lz4Block data

/-- Read an LZ4 extended length: add bytes to the accumulator until a
non-255 byte, which is also added.  Fuel bounds the recursion; none on
input underrun. -/
def readExtLen : Nat → Nat → List Nat → Option (Nat × List Nat)
  | 0, _, _ => none
  | _ + 1, _, [] => none
  | fuel + 1, acc, b :: rest =>
    if b = 255 then readExtLen fuel (acc + 255) rest else some (acc + b, rest)

/-- Take exactly n values off the front of a list; none if fewer remain. -/
def takeExact : Nat → List Nat → Option (List Nat × List Nat)
  | 0, l => some ([], l)
  | _ + 1, [] => none
  | n + 1, x :: xs => (takeExact n xs).map (fun p => (x :: p.1, p.2))

/-- Copy len bytes from the already-decoded output at back-distance offset,
one byte at a time, so overlapping matches repeat as LZ4 requires. -/
def matchCopy : Nat → List Nat → Nat → Option (List Nat)
  | 0, out, _ => some out
  | len + 1, out, offset =>
    match out.get? (out.length - offset) with
    | some b => matchCopy len (out ++ [b]) offset
    | none => none

/-- LZ4 block decoder, one sequence per step (the format lz4_flex's
decompressor implements): token byte, literal run with 255-extension, end
of block when the input ends after the literals, otherwise a two-byte
little-endian offset (nonzero, at most the decoded length) and a match run
of token-low-nibble plus four with 255-extension.  Fuel bounds the number
of sequences; every malformed case yields none. -/
def lz4DecodeLoop : Nat → List Nat → List Nat → Option (List Nat)
  | 0, _, _ => none
  | _ + 1, [], out => some out
  | fuel + 1, token :: rest, out =>
    let litRes := if token / 16 = 15 then readExtLen (rest.length + 1) 15 rest
                  else some (token / 16, rest)
    match litRes with
    | none => none
    | some (litLen, rest1) =>
      match takeExact litLen rest1 with
      | none => none
      | some (lits, rest2) =>
        match rest2 with
        | [] => some (out ++ lits)
        | [_] => none
        | o1 :: o2 :: rest3 =>
          let offset := o1 + 256 * o2
          let matRes :=
            if token % 16 = 15 then readExtLen (rest3.length + 1) (15 + 4) rest3
            else some (token % 16 + 4, rest3)
          match matRes with
          | none => none
          | some (matLen, rest4) =>
            if offset = 0 ∨ (out ++ lits).length < offset then none
            else
              match matchCopy matLen (out ++ lits) offset with
              | none => none
              | some out2 => lz4DecodeLoop fuel rest4 out2

/-- lz4_flex decompress with an expected size: decode the block and require
the output length to equal the expected size. -/
def lz4DecompressBlock (input : List Nat) (expected : Nat) : Option (List Nat) :=
  match lz4DecodeLoop (input.length + 1) input [] with
  | some out => if out.length = expected then some out else none
  | none => none

/-- lz4_flex decompress_size_prepended: read the 4-byte little-endian
uncompressed size and decode the remainder as an LZ4 block of exactly that
size; inputs shorter than four bytes fail. -/
def decompressSizePrepended (data : List Nat) : Option (List Nat) :=
  match data with
  | a :: b :: c :: d :: rest =>
    lz4DecompressBlock rest (a + 256 * b + 65536 * c + 16777216 * d)
  | _ => none

/-- BlobStoreConfig from blob_store.rs.  The path field is omitted: the
model keys the on-disk store by ContentId directly, since the sharded
storage path is a bijective function of the id's hex form. -/
structure BlobStoreConfig where
  compress : Bool
  compress_threshold : Nat
  verify_on_read : Bool

/-- On-disk state of the blob store: the stored file bytes at each
ContentId's sharded path. -/
structure BlobStoreState where
  files : List (ContentId × List Nat)
deriving DecidableEq

/-- Lookup of a stored file by content id (path existence check / read). -/
def blobGetFile (cid : ContentId) : List (ContentId × List Nat) → Option (List Nat)
  | [] => none
  | (c, d) :: rest => if c = cid then some d else blobGetFile cid rest

/-- Storage form chosen by BlobStore::put: try LZ4 when compression is on
and the body length is at least the threshold; keep the compressed form
only when it is strictly smaller than the body. -/
def storedData (lz4Block : List Nat → List Nat) (cfg : BlobStoreConfig)
    (data : List Nat) : List Nat :=
  if cfg.compress && decide (cfg.compress_threshold ≤ data.length) then
    let compressed := compressPrependSize lz4Block data
    if compressed.length < data.length then compressed else data
  else data

/-- BlobStore::put, parameterised by the BLAKE3 hash (external crate, left
abstract): compute the content id; if its path already exists return it
(dedup), otherwise write the chosen storage form there.  The temp-file,
fsync and rename steps have no observable effect in the model. -/
def blobPut (hashB : List Nat → ContentId) (lz4Block : List Nat → List Nat)
    (cfg : BlobStoreConfig) (st : BlobStoreState) (data : List Nat) :
    ContentId × BlobStoreState :=
  let content_id := hashB data
  if (blobGetFile content_id st.files).isSome then (content_id, st)
  else (content_id, ⟨st.files ++ [(content_id, storedData lz4Block cfg data)]⟩)

/-- BlobStore::get: read the stored bytes, attempt size-prepended LZ4
decompression and fall back to the raw bytes when it fails, then recompute
and compare the hash when verify_on_read is set. -/
def blobGet (hashB : List Nat → ContentId) (cfg : BlobStoreConfig)
    (st : BlobStoreState) (content_id : ContentId) :
    Except CacheError (List Nat) :=
  match blobGetFile content_id st.files with
  | none => Except.error (CacheError.notFound [])
  | some raw =>
    let decompressed := match decompressSizePrepended raw with
      | some d => d
      | none => raw
    if cfg.verify_on_read then
      if hashB decompressed = content_id then Except.ok decompressed
      else Except.error (CacheError.corruptedContent [])
    else Except.ok decompressed

/-- Configuration of the CAS round-trip failing input: compression on with
the default 1 KiB threshold, verification off. -/
def ambigConfig : BlobStoreConfig :=
  { compress := true, compress_threshold := 1024, verify_on_read := false }

/-- The failing body: six raw bytes that are also a well-formed
size-prepended LZ4 frame (declared size 1, token 0x10, literal 0x41). -/
def ambigBytes : List Nat := [1, 0, 0, 0, 16, 65]

/-- EntryKind from src/cfk-core/src/entry.rs. -/
inductive EntryKind where
  | File
  | Directory
  | Symlink
  | Unknown
deriving DecidableEq

/-- Permissions from src/cfk-core/src/metadata.rs. -/
structure Permissions where
  mode : Nat
deriving DecidableEq

/-- Metadata from src/cfk-core/src/metadata.rs; the custom map is an
association list. -/
structure Metadata where
  size : Option Nat
  created : Option Int
  modified : Option Int
  accessed : Option Int
  permissions : Option Permissions
  content_hash : Option RStr
  mime_type : Option RStr
  provider_id : Option RStr
  revision : Option RStr
  custom : List (RStr × RStr)
deriving DecidableEq

/-- Entry from src/cfk-core/src/entry.rs. -/
structure Entry where
  path : VirtualPath
  kind : EntryKind
  metadata : Metadata
deriving DecidableEq

/-- CachedEntryKind from metadata_cache.rs. -/
inductive CachedEntryKind where
  | File
  | Directory
  | Symlink
  | Unknown
deriving DecidableEq

/-- From EntryKind into CachedEntryKind (metadata_cache.rs). -/
def CachedEntryKind.fromEntryKind : EntryKind → CachedEntryKind
  | .File => .File
  | .Directory => .Directory
  | .Symlink => .Symlink
  | .Unknown => .Unknown

/-- CachedEntry from metadata_cache.rs: the serialised record in the
durable store. -/
structure CachedEntry where
  path : RStr
  backend_id : RStr
  kind : CachedEntryKind
  size : Option Nat
  modified : Option Int
  created : Option Int
  checksum : Option RStr
  mime_type : Option RStr
  content_id : Option RStr
  cached_at : Int
  expires_at : Option Int
  custom : List (RStr × RStr)
deriving DecidableEq

/-- CachedEntry::from_entry at an instant: copy the fields, stamp
cached_at, and set expires_at to now plus the ttl when one is given. -/
def CachedEntry.from_entry (now : Int) (entry : Entry) (ttl_secs : Option Int) :
    CachedEntry :=
  { path := entry.path.to_uri
    backend_id := entry.path.backend
    kind := CachedEntryKind.fromEntryKind entry.kind
    size := entry.metadata.size
    modified := entry.metadata.modified
    created := entry.metadata.created
    checksum := entry.metadata.content_hash
    mime_type := entry.metadata.mime_type
    content_id := none
    cached_at := now
    expires_at := ttl_secs.map (fun secs => now + secs)
    custom := entry.metadata.custom }

/-- CachedEntry::is_expired at an instant: strictly past expires_at; never
expired without a deadline. -/
def CachedEntry.is_expired (now : Int) (e : CachedEntry) : Bool :=
  match e.expires_at with
  | some expires => decide (expires < now)
  | none => false

/-- CachedDirectory from metadata_cache.rs. -/
structure CachedDirectory where
  path : RStr
  backend_id : RStr
  children : List RStr
  cached_at : Int
  expires_at : Option Int
deriving DecidableEq

/-- Values stored in the sled tree.  serde_json round-trips every field, so
serialisation is modelled as the identity; a value of the wrong shape under
a key is a deserialisation failure. -/
inductive DbVal where
  | entryVal (e : CachedEntry)
  | dirVal (d : CachedDirectory)
deriving DecidableEq

/-- Association-list lookup with string keys (sled get / HashMap get). -/
def assocGet {β : Type} (k : RStr) : List (RStr × β) → Option β
  | [] => none
  | (k2, v) :: rest => if k2 = k then some v else assocGet k rest

/-- Association-list insert: replace in place or append (sled insert /
HashMap insert). -/
def assocPut {β : Type} (k : RStr) (v : β) : List (RStr × β) → List (RStr × β)
  | [] => [(k, v)]
  | (k2, v2) :: rest =>
    if k2 = k then (k, v) :: rest else (k2, v2) :: assocPut k v rest

/-- Association-list removal of a key (sled remove / HashMap remove). -/
def assocRemove {β : Type} (k : RStr) : List (RStr × β) → List (RStr × β)
  | [] => []
  | (k2, v) :: rest => if k2 = k then rest else (k2, v) :: assocRemove k rest

/-- The lru module of metadata_cache.rs: a map plus an access-ordered key
list (oldest first) and a capacity. -/
structure LruCacheM where
  map : List (RStr × CachedEntry)
  order : List RStr
  capacity : Nat
deriving DecidableEq

/-- LruCache::get: on a hit, move the key to the back of the order and
return the value; a miss changes nothing. -/
def LruCacheM.get (c : LruCacheM) (k : RStr) : Option CachedEntry × LruCacheM :=
  match assocGet k c.map with
  | some v =>
    (some v,
      { c with order := c.order.filter (fun k2 => decide (k2 ≠ k)) ++ [k] })
  | none => (none, c)

/-- LruCache::put: a present key is re-inserted and moved to the back; at
capacity the oldest key is evicted first; then insert and push. -/
def LruCacheM.put (c : LruCacheM) (k : RStr) (v : CachedEntry) : LruCacheM :=
  if (assocGet k c.map).isSome then
    { map := assocPut k v c.map
      order := c.order.filter (fun k2 => decide (k2 ≠ k)) ++ [k]
      capacity := c.capacity }
  else if c.capacity ≤ c.map.length then
    match c.order with
    | oldest :: restOrder =>
      { map := assocPut k v (assocRemove oldest c.map)
        order := restOrder ++ [k]
        capacity := c.capacity }
    | [] => { map := assocPut k v c.map, order := [k], capacity := c.capacity }
  else
    { map := assocPut k v c.map, order := c.order ++ [k], capacity := c.capacity }

/-- LruCache::pop: drop the key from the map and the order. -/
def LruCacheM.pop (c : LruCacheM) (k : RStr) : LruCacheM :=
  { map := assocRemove k c.map
    order := c.order.filter (fun k2 => decide (k2 ≠ k))
    capacity := c.capacity }

/-- LruCache::clear. -/
def LruCacheM.clear (c : LruCacheM) : LruCacheM :=
  { map := [], order := [], capacity := c.capacity }

/-- MetadataCacheConfig from metadata_cache.rs (db_path omitted: the sled
tree is part of the modelled state). -/
structure MetadataCacheConfig where
  default_ttl : Int
  max_entries : Nat

/-- MetadataCache state: the configuration, the sled tree and the memory
LRU. -/
structure MetadataCacheState where
  config : MetadataCacheConfig
  db : List (RStr × DbVal)
  memory_cache : LruCacheM

/-- The sled key of an entry record: the literal prefix entry: followed by
the path's Display string. -/
def entryKey (k : RStr) : RStr := "entry:".data ++ k

/-- The sled key of a directory record: the literal prefix dir: followed by
the path's Display string. -/
def dirKey (k : RStr) : RStr := "dir:".data ++ k

/-- MetadataCache::put_entry_with_ttl: build the CachedEntry, write it to
the sled tree under its entry key, and insert it into the memory LRU. -/
def MetadataCacheState.put_entry_with_ttl (now : Int) (st : MetadataCacheState)
    (entry : Entry) (ttl_secs : Int) : MetadataCacheState :=
  let cached := CachedEntry.from_entry now entry (some ttl_secs)
  let key := entry.path.to_uri
  { st with db := assocPut (entryKey key) (DbVal.entryVal cached) st.db
            memory_cache := st.memory_cache.put key cached }

/-- MetadataCache::put_entry: put_entry_with_ttl at the default TTL. -/
def MetadataCacheState.put_entry (now : Int) (st : MetadataCacheState)
    (entry : Entry) : MetadataCacheState :=
  st.put_entry_with_ttl now entry st.config.default_ttl

/-- Database half of MetadataCache::get_entry: read the entry key; a fresh
record is returned and promoted into the memory LRU, an expired record is
deleted and reported absent, a record of the wrong shape is a
deserialisation error. -/
def MetadataCacheState.getEntryDb (now : Int) (st : MetadataCacheState)
    (key : RStr) : Except CacheError (Option CachedEntry) × MetadataCacheState :=
  match assocGet (entryKey key) st.db with
  | some (DbVal.entryVal cached) =>
    if cached.is_expired now then
      (Except.ok none, { st with db := assocRemove (entryKey key) st.db })
    else
      (Except.ok (some cached),
        { st with memory_cache := st.memory_cache.put key cached })
  | some (DbVal.dirVal _) => (Except.error (CacheError.serializationError []), st)
  | none => (Except.ok none, st)

/-- MetadataCache::get_entry: consult the memory LRU first (an unexpired
hit is returned at once; an expired hit falls through, its access still
reordering the LRU), then the durable store. -/
def MetadataCacheState.get_entry (now : Int) (st : MetadataCacheState)
    (path : VirtualPath) : Except CacheError (Option CachedEntry) × MetadataCacheState :=
  let m := st.memory_cache.get path.to_uri
  let st1 : MetadataCacheState := { st with memory_cache := m.2 }
  match m.1 with
  | some entry =>
    if !(entry.is_expired now) then (Except.ok (some entry), st1)
    else MetadataCacheState.getEntryDb now st1 path.to_uri
  | none => MetadataCacheState.getEntryDb now st1 path.to_uri

/-- MetadataCache::invalidate: remove the entry key from the sled tree and
pop the path from the memory LRU. -/
def MetadataCacheState.invalidate (st : MetadataCacheState)
    (path : VirtualPath) : MetadataCacheState :=
  { st with db := assocRemove (entryKey path.to_uri) st.db
            memory_cache := st.memory_cache.pop path.to_uri }

/-- MetadataCache::invalidate_directory: delete every sled key starting
with entry:<path>: (the path's Display string followed by a colon), then
delete the dir:<path> key.  The memory LRU is not touched. -/
def MetadataCacheState.invalidate_directory (st : MetadataCacheState)
    (path : VirtualPath) : MetadataCacheState :=
  let pref := "entry:".data ++ path.to_uri ++ ":".data
  let db2 := st.db.filter (fun kv => !(hasPref pref kv.1))
  { st with db := assocRemove (dirKey path.to_uri) db2 }

/-- MetadataCache::clear_backend: delete every sled key starting with
entry:<backend>: and every key starting with dir:<backend>:, then clear the
memory LRU. -/
def MetadataCacheState.clear_backend (st : MetadataCacheState)
    (backend_id : RStr) : MetadataCacheState :=
  let epref := "entry:".data ++ backend_id ++ ":".data
  let dpref := "dir:".data ++ backend_id ++ ":".data
  let db2 := st.db.filter (fun kv => !(hasPref epref kv.1))
  let db3 := db2.filter (fun kv => !(hasPref dpref kv.1))
  { st with db := db3
            memory_cache := st.memory_cache.clear }

/-- Hypothesis predicate for the TTL claim: whatever the durable store
holds under the path's entry key is an expired CachedEntry (true when the
key is absent). -/
def dbEntryExpired (now : Int) (st : MetadataCacheState) (key : RStr) : Bool :=
  match assocGet (entryKey key) st.db with
  | some (DbVal.entryVal c) => c.is_expired now
  | some (DbVal.dirVal _) => false
  | none => true

/-- Hypothesis predicate for the TTL claim: whatever the memory LRU holds
under the path is expired (true when the key is absent). -/
def memEntryExpired (now : Int) (st : MetadataCacheState) (key : RStr) : Bool :=
  match assocGet key st.memory_cache.map with
  | some c => c.is_expired now
  | none => true

/-- The concrete child path cfk://local/docs/file. -/
def childPath : VirtualPath :=
  { backend := "local".data, segments := ["docs".data, "file".data] }

/-- The concrete parent directory path cfk://local/docs. -/
def dirPath : VirtualPath :=
  { backend := "local".data, segments := ["docs".data] }

/-- A concrete origin entry at the child path. -/
def childEntry : Entry :=
  { path := childPath
    kind := .File
    metadata :=
      { size := some 1, created := none, modified := none, accessed := none
        permissions := none, content_hash := none, mime_type := none
        provider_id := none, revision := none, custom := [] } }

/-- Metadata cache configuration with the default one-hour TTL. -/
def mcConfig : MetadataCacheConfig :=
  { default_ttl := 3600, max_entries := 100000 }

/-- A fresh metadata cache state: empty sled tree, empty memory LRU of
capacity 10000. -/
def mcState0 : MetadataCacheState :=
  { config := mcConfig
    db := []
    memory_cache := { map := [], order := [], capacity := 10000 } }

/-- A small blob-store configuration for the compression-policy witness. -/
def c9cfg : BlobStoreConfig :=
  { compress := true, compress_threshold := 3, verify_on_read := false }

/-- A seven-byte body above the witness threshold. -/
def c9data : List Nat := [7, 7, 7, 7, 7, 7, 7]

/-- A concrete instantiation of the abstract hash for witnesses: the
identity embedding of the bytes. -/
def c9hash : List Nat → ContentId := fun l => ⟨l⟩

/-- A concrete instantiation of the abstract block compressor for
witnesses: a constant one-byte output. -/
def c9lz4 : List Nat → List Nat := fun _ => [0]

end Cfk

namespace Cfk

theorem stripPref_append (p s : RStr) : stripPref p (p ++ s) = some s := by
  induction p with
  | nil => rfl
  | cons x xs ih => simp [stripPref, ih]

theorem splitOnce_no_sep {c : Char} {a : RStr} (h : c ∉ a) (b : RStr) :
    splitOnce c (a ++ c :: b) = some (a, b) := by
  induction a with
  | nil => simp [splitOnce]
  | cons x xs ih =>
    simp only [List.mem_cons, not_or] at h
    simp [splitOnce, Ne.symm h.1, ih h.2]

theorem splitChar_no_sep {c : Char} {s : RStr} (h : c ∉ s) :
    splitChar c s = [s] := by
  induction s with
  | nil => rfl
  | cons x xs ih =>
    simp only [List.mem_cons, not_or] at h
    simp [splitChar, Ne.symm h.1, ih h.2, consHead]

theorem splitChar_append_sep {c : Char} {s : RStr} (h : c ∉ s) (t : RStr) :
    splitChar c (s ++ c :: t) = s :: splitChar c t := by
  induction s with
  | nil => simp [splitChar]
  | cons x xs ih =>
    simp only [List.mem_cons, not_or] at h
    have hrec := ih h.2
    calc splitChar c ((x :: xs) ++ c :: t)
        = consHead x (splitChar c (xs ++ c :: t)) := by
          simp only [List.cons_append, splitChar, if_neg (Ne.symm h.1)]
          rfl
      _ = consHead x (xs :: splitChar c t) := by rw [hrec]
      _ = (x :: xs) :: splitChar c t := rfl

theorem splitChar_joinSep {c : Char} {segs : List RStr}
    (hne : segs ≠ []) (h : ∀ s ∈ segs, s ≠ [] ∧ c ∉ s) :
    splitChar c (joinSep c segs) = segs := by
  induction segs with
  | nil => exact absurd rfl hne
  | cons s rest ih =>
    cases rest with
    | nil =>
      simp only [joinSep]
      exact splitChar_no_sep (h s (by simp)).2
    | cons s2 rest2 =>
      have hs := h s (by simp)
      have hrec := ih (by simp) (fun x hx => h x (List.mem_cons_of_mem _ hx))
      simp only [joinSep]
      rw [splitChar_append_sep hs.2, hrec]

/-- C8 fails as stated: the canonicity conditions in the claim do not forbid
a slash inside the backend identifier, and a backend containing a slash does
not survive the round trip.  At the concrete root path with backend a/b, the
claim's hypotheses hold, yet parse_uri of to_uri yields backend a with
segment b. -/
theorem C8_counterexample :
    (VirtualPath.mk "a/b".data []).backend ≠ [] ∧
    (∀ s ∈ (VirtualPath.mk "a/b".data []).segments, s ≠ [] ∧ '/' ∉ s) ∧
    VirtualPath.parse_uri (VirtualPath.to_uri (VirtualPath.mk "a/b".data [])) ≠
      some (VirtualPath.mk "a/b".data []) := by
  refine ⟨by decide, by decide, by decide⟩

/-- C8 (amended): for every VirtualPath whose backend is non-empty and free
of slashes and whose segments are all non-empty and free of slashes,
parse_uri inverts to_uri; this includes the root path, whose URI carries a
trailing slash. -/
theorem C8_uri_roundtrip (vp : VirtualPath)
    (hb : vp.backend ≠ []) (hbs : '/' ∉ vp.backend)
    (hs : ∀ s ∈ vp.segments, s ≠ [] ∧ '/' ∉ s) :
    VirtualPath.parse_uri (VirtualPath.to_uri vp) = some vp := by
  obtain ⟨b, segs⟩ := vp
  simp only [VirtualPath.to_uri, VirtualPath.parse_uri, List.append_assoc,
    stripPref_append]
  cases segs with
  | nil =>
    simp only [VirtualPath.to_path_string, List.isEmpty_nil, if_pos]
    have : (['/'] : RStr) = '/' :: [] := rfl
    rw [this, splitOnce_no_sep hbs]
    simp [VirtualPath.new, splitChar]
  | cons s rest =>
    have hpath : VirtualPath.to_path_string ⟨b, s :: rest⟩ =
        '/' :: joinSep '/' (s :: rest) := rfl
    rw [hpath, splitOnce_no_sep hbs]
    simp only [Option.getD_some, VirtualPath.new, VirtualPath.mk.injEq, true_and]
    rw [splitChar_joinSep (by simp) hs]
    rw [List.filter_eq_self.mpr]
    intro a ha
    have := (hs a ha).1
    simpa [List.isEmpty_iff] using this

/-- C8 witness: the round-trip theorem applied at the concrete two-segment
path cfk://s3/bucket/key. -/
theorem C8_uri_roundtrip_witness :
    VirtualPath.parse_uri
        (VirtualPath.to_uri (VirtualPath.mk "s3".data ["bucket".data, "key".data])) =
      some (VirtualPath.mk "s3".data ["bucket".data, "key".data]) :=
  C8_uri_roundtrip (VirtualPath.mk "s3".data ["bucket".data, "key".data])
    (by decide) (by decide) (by decide)

/-- C10: is_retryable returns true for an error value exactly when it is a
Network, RateLimited, Timeout or TokenExpired value, and false for every
other variant of CfkError. -/
theorem C10_is_retryable_classification (e : CfkError) :
    e.is_retryable = true ↔
      ((∃ s, e = .network s) ∨ (∃ r, e = .rateLimited r) ∨
        e = .timeout ∨ e = .tokenExpired) := by
  cases e <;> simp [CfkError.is_retryable]

theorem sumSizes_nil : sumSizes [] = 0 := rfl

theorem sumSizes_cons (e : CacheEntryInfo) (l : List CacheEntryInfo) :
    sumSizes (e :: l) = e.size + sumSizes l := by
  simp [sumSizes]

theorem sumSizes_append (l1 l2 : List CacheEntryInfo) :
    sumSizes (l1 ++ l2) = sumSizes l1 + sumSizes l2 := by
  simp [sumSizes]

theorem insertInfo_of_not_mem {info : CacheEntryInfo} {l : List CacheEntryInfo}
    (h : info.content_id ∉ cids l) : insertInfo info l = l ++ [info] := by
  induction l with
  | nil => rfl
  | cons e rest ih =>
    simp only [cids, List.map_cons, List.mem_cons, not_or] at h
    have hne : (e.content_id == info.content_id) = false :=
      beq_eq_false_iff_ne.mpr (fun hx => h.1 hx.symm)
    simp only [insertInfo, hne, Bool.false_eq_true, if_false, List.cons_append,
      List.cons.injEq, true_and]
    exact ih (by simpa [cids] using h.2)

theorem sumSizes_map_access (now : Int) (cid : ContentId)
    (l : List CacheEntryInfo) :
    sumSizes (l.map (fun e => if e.content_id == cid then e.touch now else e)) =
      sumSizes l := by
  induction l with
  | nil => rfl
  | cons x rest ih =>
    simp only [List.map_cons, sumSizes_cons, ih]
    congr 1
    by_cases hx : (x.content_id == cid) = true
    · simp [hx, CacheEntryInfo.touch]
    · simp [hx]

theorem eraseCid_sum {cid : ContentId} {l : List CacheEntryInfo}
    {e : CacheEntryInfo} (h : findCid cid l = some e) :
    e.size ≤ sumSizes l ∧ sumSizes (eraseCid cid l) = sumSizes l - e.size := by
  induction l with
  | nil => simp [findCid] at h
  | cons x rest ih =>
    simp only [findCid] at h
    simp only [eraseCid, sumSizes_cons]
    by_cases hx : (x.content_id == cid) = true
    · rw [if_pos hx, Option.some.injEq] at h
      subst h
      rw [if_pos hx]
      omega
    · rw [if_neg hx] at h
      have := ih h
      rw [if_neg hx, sumSizes_cons]
      omega

theorem applyOp_invariant_step {st : CachePolicy} (op : PolicyOp)
    (h : st.total_size = sumSizes st.entries)
    (hfresh : (match op with
      | .add info => decide (info.content_id ∉ cids st.entries)
      | _ => true) = true) :
    (st.applyOp op).total_size = sumSizes (st.applyOp op).entries := by
  cases op with
  | add info =>
    have hni : info.content_id ∉ cids st.entries := of_decide_eq_true hfresh
    simp [CachePolicy.applyOp, CachePolicy.record_add,
      insertInfo_of_not_mem hni, sumSizes_append, h, sumSizes_cons, sumSizes_nil]
  | access now cid =>
    have hkeep := sumSizes_map_access now cid st.entries
    simp only [CachePolicy.applyOp, CachePolicy.record_access, hkeep, h]
  | remove cid =>
    simp only [CachePolicy.applyOp, CachePolicy.record_remove]
    cases hf : findCid cid st.entries with
    | none => simpa using h
    | some e =>
      have hsum := eraseCid_sum hf
      simp only []
      omega

theorem foldl_applyOp_invariant (ops : List PolicyOp) :
    ∀ st : CachePolicy, st.total_size = sumSizes st.entries →
      freshAddsB st ops = true →
      (ops.foldl CachePolicy.applyOp st).total_size =
        sumSizes (ops.foldl CachePolicy.applyOp st).entries := by
  induction ops with
  | nil => intro st h _; exact h
  | cons op rest ih =>
    intro st h hfresh
    simp only [freshAddsB, Bool.and_eq_true] at hfresh
    exact ih _ (applyOp_invariant_step op h hfresh.1) hfresh.2

/-- C6 counterexample: record_add of a content id that is already present
adds the new size to total_size without subtracting the replaced entry's
size.  Adding the same id with sizes 5 then 7 leaves total_size at 12 while
the entries map holds a single entry of size 7. -/
theorem C6_counterexample :
    (runOps dupAddConfig dupAddTrace).total_size = 12 ∧
    sumSizes (runOps dupAddConfig dupAddTrace).entries = 7 := by
  decide

/-- C6 (amended): in every CachePolicy state reachable from a fresh
CachePolicy::new by record_add, record_access and record_remove calls in
which each record_add carries a content id not currently in the entries map,
total_size equals the sum of the stored entries' sizes.  A record_add that
overwrites an existing id breaks the equality. -/
theorem C6_total_size_accounting (config : PolicyConfig) (ops : List PolicyOp)
    (h : freshAddsB (CachePolicy.new config) ops = true) :
    (runOps config ops).total_size = sumSizes (runOps config ops).entries :=
  foldl_applyOp_invariant ops (CachePolicy.new config) rfl h

/-- C6 witness: the accounting theorem applied to a concrete four-operation
trace with fresh adds. -/
theorem C6_total_size_accounting_witness :
    freshAddsB (CachePolicy.new dupAddConfig) freshTrace = true ∧
    (runOps dupAddConfig freshTrace).total_size =
      sumSizes (runOps dupAddConfig freshTrace).entries :=
  ⟨by decide, C6_total_size_accounting dupAddConfig freshTrace (by decide)⟩

theorem stableInsert_perm (lt : α → α → Bool) (a : α) (l : List α) :
    List.Perm (stableInsert lt a l) (a :: l) := by
  induction l with
  | nil => exact List.Perm.refl _
  | cons b l ih =>
    by_cases h : lt b a = true
    · simp only [stableInsert, h, if_true]
      exact List.Perm.trans (ih.cons b) (List.Perm.swap a b l)
    · simp only [stableInsert]
      rw [if_neg h]

theorem stableSortBy_perm (lt : α → α → Bool) (l : List α) :
    List.Perm (stableSortBy lt l) l := by
  induction l with
  | nil => exact List.Perm.refl _
  | cons a l ih =>
    exact List.Perm.trans (stableInsert_perm lt a (stableSortBy lt l)) (ih.cons a)

theorem pairwise_stableInsert {lt : α → α → Bool}
    (hasym : ∀ a b, lt a b = true → lt b a = false)
    (htrans : ∀ a b c, lt b a = false → lt c b = false → lt c a = false)
    (a : α) (l : List α) (hl : l.Pairwise (fun x y => lt y x = false)) :
    (stableInsert lt a l).Pairwise (fun x y => lt y x = false) := by
  induction l with
  | nil => simp [stableInsert]
  | cons b l ih =>
    rcases List.pairwise_cons.mp hl with ⟨hb, hl2⟩
    by_cases h : lt b a = true
    · simp only [stableInsert, h, if_true]
      refine List.pairwise_cons.mpr ⟨?_, ih hl2⟩
      intro x hx
      rcases List.mem_cons.mp ((stableInsert_perm lt a l).mem_iff.mp hx) with
        hxa | hxl
      · rw [hxa]
        exact hasym b a h
      · exact hb x hxl
    · simp only [stableInsert]
      rw [if_neg h]
      have hba : lt b a = false := by
        simpa using h
      refine List.pairwise_cons.mpr ⟨?_, hl⟩
      intro x hx
      rcases List.mem_cons.mp hx with rfl | hxl
      · exact hba
      · exact htrans a b x hba (hb x hxl)

theorem pairwise_stableSortBy {lt : α → α → Bool}
    (hasym : ∀ a b, lt a b = true → lt b a = false)
    (htrans : ∀ a b c, lt b a = false → lt c b = false → lt c a = false)
    (l : List α) :
    (stableSortBy lt l).Pairwise (fun x y => lt y x = false) := by
  induction l with
  | nil => simp [stableSortBy]
  | cons a l ih => exact pairwise_stableInsert hasym htrans a _ ih

theorem selectInfos_sublist (s e : Nat) (f c : Nat) (l : List CacheEntryInfo) :
    List.Sublist (selectInfos s e f c l) l := by
  induction l generalizing f c with
  | nil => simp [selectInfos]
  | cons x rest ih =>
    simp only [selectInfos]
    by_cases h : s ≤ f ∧ e ≤ c
    · rw [if_pos h]
      exact List.nil_sublist _
    · rw [if_neg h]
      exact (ih _ _).cons₂ x

theorem selectInfos_spec (s e : Nat) (f c : Nat) (l : List CacheEntryInfo) :
    selectInfos s e f c l = l ∨
      (s ≤ f + sumSizes (selectInfos s e f c l) ∧
        e ≤ c + (selectInfos s e f c l).length) := by
  induction l generalizing f c with
  | nil => left; rfl
  | cons x rest ih =>
    simp only [selectInfos]
    by_cases h : s ≤ f ∧ e ≤ c
    · rw [if_pos h]
      right
      simpa [sumSizes_nil] using h
    · rw [if_neg h]
      rcases ih (f + x.size) (c + 1) with heq | ⟨h1, h2⟩
      · left
        rw [heq]
      · right
        refine ⟨?_, ?_⟩
        · rw [sumSizes_cons]
          omega
        · rw [List.length_cons]
          omega

theorem selectInfosOf_eq_targets (f : CacheEntryInfo → ℚ) (now : Int)
    (st : CachePolicy) (ts te : Nat)
    (hts : ⌊(st.config.max_size : ℚ) * st.config.target_utilization⌋₊ = ts)
    (hte : ⌊(st.config.max_entries : ℚ) * st.config.target_utilization⌋₊ = te) :
    st.selectInfosOf f now = st.selectInfosWith f now ts te := by
  rw [CachePolicy.selectInfosOf, hts, hte]

theorem pairwise_stableInsert_stable {lt : α → α → Bool}
    (hasym : ∀ a b, lt a b = true → lt b a = false)
    (htrans : ∀ a b c, lt b a = false → lt c b = false → lt c a = false)
    (a : α) (l0 : List α) :
    ∀ l : List α, (∀ x ∈ l, x ∈ l0) →
      l.Pairwise (fun x y => lt y x = false ∧
        (lt x y = true ∨ List.Sublist [x, y] l0)) →
      (stableInsert lt a l).Pairwise (fun x y => lt y x = false ∧
        (lt x y = true ∨ List.Sublist [x, y] (a :: l0))) := by
  intro l
  induction l with
  | nil =>
    intro _ _
    simp [stableInsert]
  | cons b rest ih =>
    intro hmem hl
    rcases List.pairwise_cons.mp hl with ⟨hb, hrest⟩
    by_cases h : lt b a = true
    · simp only [stableInsert, h, if_true]
      refine List.pairwise_cons.mpr
        ⟨?_, ih (fun x hx => hmem x (List.mem_cons_of_mem b hx)) hrest⟩
      intro x hx
      rcases List.mem_cons.mp
          ((stableInsert_perm lt a rest).mem_iff.mp hx) with hxa | hxl
      · rw [hxa]
        exact ⟨hasym b a h, Or.inl h⟩
      · obtain ⟨h1, h2⟩ := hb x hxl
        exact ⟨h1, h2.imp id (fun h3 => h3.trans (List.sublist_cons_self a l0))⟩
    · simp only [stableInsert]
      rw [if_neg h]
      have hba : lt b a = false := by simpa using h
      refine List.pairwise_cons.mpr ⟨?_, ?_⟩
      · intro x hx
        rcases List.mem_cons.mp hx with hxb | hxl
        · rw [hxb]
          refine ⟨hba, Or.inr ?_⟩
          exact (List.singleton_sublist.mpr
            (hmem b (List.mem_cons_self b rest))).cons₂ a
        · obtain ⟨h1, _⟩ := hb x hxl
          refine ⟨htrans a b x hba h1, Or.inr ?_⟩
          exact (List.singleton_sublist.mpr
            (hmem x (List.mem_cons_of_mem b hxl))).cons₂ a
      · exact hl.imp (fun hxy =>
          ⟨hxy.1, hxy.2.imp id
            (fun h3 => h3.trans (List.sublist_cons_self a l0))⟩)

theorem pairwise_stableSortBy_stable {lt : α → α → Bool}
    (hasym : ∀ a b, lt a b = true → lt b a = false)
    (htrans : ∀ a b c, lt b a = false → lt c b = false → lt c a = false) :
    ∀ l : List α, (stableSortBy lt l).Pairwise (fun x y => lt y x = false ∧
      (lt x y = true ∨ List.Sublist [x, y] l)) := by
  intro l
  induction l with
  | nil => simp [stableSortBy]
  | cons a l ih =>
    exact pairwise_stableInsert_stable hasym htrans a l (stableSortBy lt l)
      (fun x hx => (stableSortBy_perm lt l).mem_iff.mp hx) ih

theorem entry_eq_of_cid_eq {l : List CacheEntryInfo}
    (hnodup : (cids l).Nodup) {a b : CacheEntryInfo}
    (ha : a ∈ l) (hb : b ∈ l) (hcid : a.content_id = b.content_id) :
    a = b := by
  induction l with
  | nil => simp at ha
  | cons x rest ih =>
    obtain ⟨hxnotin, hrestnd⟩ := List.nodup_cons.mp
      (show (x.content_id :: cids rest).Nodup from hnodup)
    rcases List.mem_cons.mp ha with hax | har
    · rcases List.mem_cons.mp hb with hbx | hbr
      · rw [hax, hbx]
      · exfalso
        apply hxnotin
        rw [← hax, hcid]
        exact List.mem_map_of_mem (fun e => e.content_id) hbr
    · rcases List.mem_cons.mp hb with hbx | hbr
      · exfalso
        apply hxnotin
        rw [← hbx, ← hcid]
        exact List.mem_map_of_mem (fun e => e.content_id) har
      · exact ih hrestnd har hbr

theorem lfu_selectInfosWith_stable (f : CacheEntryInfo → ℚ) (now : Int)
    (st : CachePolicy) (ts te : Nat)
    (hpol : st.config.policy = EvictionPolicy.Lfu) :
    (∀ e ∈ st.selectInfosWith f now ts te, e ∈ st.entries) ∧
    (st.selectInfosWith f now ts te).Pairwise (fun x y =>
      x.access_count ≤ y.access_count ∧
      (x.access_count = y.access_count → List.Sublist [x, y] st.entries)) := by
  have hasym : ∀ a b : CacheEntryInfo,
      policyLess EvictionPolicy.Lfu f a b = true →
      policyLess EvictionPolicy.Lfu f b a = false := by
    intro a b h
    simp only [policyLess, decide_eq_true_eq] at h
    simp only [policyLess, decide_eq_false_iff_not]
    omega
  have htrans : ∀ a b c : CacheEntryInfo,
      policyLess EvictionPolicy.Lfu f b a = false →
      policyLess EvictionPolicy.Lfu f c b = false →
      policyLess EvictionPolicy.Lfu f c a = false := by
    intro a b c h1 h2
    simp only [policyLess, decide_eq_false_iff_not] at h1 h2 ⊢
    omega
  have hperm : List.Perm (st.selectCandidates f now)
      (st.entries.filter (fun e => decide (st.config.min_ttl ≤ now - e.created))) :=
    stableSortBy_perm (policyLess st.config.policy f)
      (st.entries.filter (fun e => decide (st.config.min_ttl ≤ now - e.created)))
  have hsub := selectInfos_sublist (st.total_size - ts)
    (st.entries.length - te) 0 0 (st.selectCandidates f now)
  constructor
  · intro e he
    exact (List.mem_filter.mp (hperm.mem_iff.mp (hsub.subset he))).1
  · have hcand : (st.selectCandidates f now).Pairwise (fun x y =>
        policyLess EvictionPolicy.Lfu f y x = false ∧
        (policyLess EvictionPolicy.Lfu f x y = true ∨
          List.Sublist [x, y] (st.entries.filter
            (fun e => decide (st.config.min_ttl ≤ now - e.created))))) := by
      have hstable := pairwise_stableSortBy_stable hasym htrans
        (st.entries.filter (fun e => decide (st.config.min_ttl ≤ now - e.created)))
      simpa only [CachePolicy.selectCandidates, hpol] using hstable
    have himp : ∀ x y : CacheEntryInfo,
        (policyLess EvictionPolicy.Lfu f y x = false ∧
          (policyLess EvictionPolicy.Lfu f x y = true ∨
            List.Sublist [x, y] (st.entries.filter
              (fun e => decide (st.config.min_ttl ≤ now - e.created))))) →
        (x.access_count ≤ y.access_count ∧
          (x.access_count = y.access_count → List.Sublist [x, y] st.entries)) := by
      intro x y hxy
      obtain ⟨h1, h2⟩ := hxy
      simp only [policyLess, decide_eq_false_iff_not] at h1
      constructor
      · omega
      · intro heq
        rcases h2 with h2 | h2
        · simp only [policyLess, decide_eq_true_eq] at h2
          exact absurd h2 (by omega)
        · exact h2.trans (List.filter_sublist st.entries)
    exact (hcand.sublist hsub).imp (fun hxy => himp _ _ hxy)

/-- C4 counterexample: under Lfu the sort key is access_count alone.  In a
concrete state with two eligible equal-count entries where the entry with
the newer last_accessed comes first in iteration order, the victim list
keeps that order, so the older-last_accessed entry is not evicted first. -/
theorem C4_counterexample :
    (lfuTieState.select_evictions (fun _ => 0) 100).evicted =
      [⟨[1]⟩, ⟨[2]⟩] ∧
    ¬ olderFirstOnTies lfuTieState.entries
        (lfuTieState.select_evictions (fun _ => 0) 100).evicted := by
  have hne : lfuTieState.needs_eviction = true := by decide
  have hsel : lfuTieState.selectInfosOf (fun _ => 0) 100 =
      lfuTieState.selectInfosWith (fun _ => 0) 100 100 0 :=
    selectInfosOf_eq_targets (fun _ => 0) 100 lfuTieState 100 0
      (by norm_num [lfuTieState]) (by norm_num [lfuTieState])
  have hev : (lfuTieState.select_evictions (fun _ => 0) 100).evicted =
      [⟨[1]⟩, ⟨[2]⟩] := by
    rw [CachePolicy.select_evictions, if_pos hne]
    rw [hsel]
    decide
  refine ⟨hev, ?_⟩
  rw [hev]
  intro hof
  rcases List.pairwise_cons.mp hof with ⟨hrel, _⟩
  have h12 := hrel ⟨[2]⟩ (by simp)
  have := h12
    { content_id := ⟨[1]⟩, size := 1, last_accessed := 10
      access_count := 5, created := 0, priority := 0 }
    (by decide)
    { content_id := ⟨[2]⟩, size := 1, last_accessed := 3
      access_count := 5, created := 0, priority := 0 }
    (by decide) rfl rfl rfl
  have hcontra : (10 : Int) ≤ 3 := this
  omega

/-- C4 (amended): under the Lfu policy (for the HashMap-backed states,
whose key column is duplicate-free) every victim id returned by
select_evictions resolves to an entry of the policy map, and along the
victim list the entries carrying the ids have ascending access_count; on
equal access_count the earlier victim's entry precedes the later victim's
entry in the map's iteration order — there is no last_accessed tie-break. -/
theorem C4_lfu_victim_order (adaptiveScore : CacheEntryInfo → ℚ) (now : Int)
    (st : CachePolicy) (hpol : st.config.policy = EvictionPolicy.Lfu)
    (hnodup : (cids st.entries).Nodup) :
    (∀ c ∈ (st.select_evictions adaptiveScore now).evicted,
      ∃ a ∈ st.entries, a.content_id = c) ∧
    List.Pairwise (fun c d =>
      ∀ a ∈ st.entries, ∀ b ∈ st.entries,
        a.content_id = c → b.content_id = d →
          a.access_count ≤ b.access_count ∧
          (a.access_count = b.access_count → List.Sublist [a, b] st.entries))
      (st.select_evictions adaptiveScore now).evicted := by
  by_cases hne : st.needs_eviction = true
  · have hev : (st.select_evictions adaptiveScore now).evicted =
        (st.selectInfosOf adaptiveScore now).map (fun e => e.content_id) := by
      simp [CachePolicy.select_evictions, hne]
    rw [hev]
    simp only [CachePolicy.selectInfosOf]
    obtain ⟨hmem, hpair⟩ := lfu_selectInfosWith_stable adaptiveScore now st
      ⌊(st.config.max_size : ℚ) * st.config.target_utilization⌋₊
      ⌊(st.config.max_entries : ℚ) * st.config.target_utilization⌋₊ hpol
    constructor
    · intro c hc
      obtain ⟨e, he, hce⟩ := List.mem_map.mp hc
      exact ⟨e, hmem e he, hce⟩
    · rw [List.pairwise_map]
      refine hpair.imp_of_mem ?_
      intro x y hx hy hxy
      intro a ha b hbmem hac hbc
      have hax : a = x := entry_eq_of_cid_eq hnodup ha (hmem x hx) hac
      have hby : b = y := entry_eq_of_cid_eq hnodup hbmem (hmem y hy) hbc
      rw [hax, hby]
      exact hxy
  · have hev : (st.select_evictions adaptiveScore now).evicted = [] := by
      simp [CachePolicy.select_evictions, hne]
    rw [hev]
    exact ⟨fun c hc => absurd hc (List.not_mem_nil c), List.Pairwise.nil⟩

/-- C4 witness: the amended victim-order theorem applied at the concrete
Lfu state used in the counterexample. -/
theorem C4_lfu_victim_order_witness :
    (∀ c ∈ (lfuTieState.select_evictions (fun _ => 0) 100).evicted,
      ∃ a ∈ lfuTieState.entries, a.content_id = c) ∧
    List.Pairwise (fun c d =>
      ∀ a ∈ lfuTieState.entries, ∀ b ∈ lfuTieState.entries,
        a.content_id = c → b.content_id = d →
          a.access_count ≤ b.access_count ∧
          (a.access_count = b.access_count →
            List.Sublist [a, b] lfuTieState.entries))
      (lfuTieState.select_evictions (fun _ => 0) 100).evicted :=
  C4_lfu_victim_order (fun _ => 0) 100 lfuTieState rfl (by decide)

theorem findCid_of_nodup {l : List CacheEntryInfo} {s : CacheEntryInfo}
    (hnodup : (cids l).Nodup) (hmem : s ∈ l) :
    findCid s.content_id l = some s := by
  induction l with
  | nil => simp at hmem
  | cons x rest ih =>
    obtain ⟨hxnotin, hrestnd⟩ :=
      List.nodup_cons.mp (show (x.content_id :: cids rest).Nodup from hnodup)
    simp only [findCid]
    by_cases hxe : (x.content_id == s.content_id) = true
    · rw [if_pos hxe]
      have hxeq : x.content_id = s.content_id := by simpa using hxe
      rcases List.mem_cons.mp hmem with heq | hmemr
      · rw [heq]
      · have hin : x.content_id ∈ cids rest := by
          rw [hxeq]
          exact List.mem_map_of_mem (fun e => e.content_id) hmemr
        exact absurd hin hxnotin
    · rw [if_neg hxe]
      have hxne : ¬ x.content_id = s.content_id := by simpa using hxe
      have hsr : s ∈ rest := by
        rcases List.mem_cons.mp hmem with heq | hmemr
        · exact absurd (by rw [heq]) hxne
        · exact hmemr
      exact ih hrestnd hsr

theorem eraseCid_eq_filter {s : CacheEntryInfo} {l : List CacheEntryInfo}
    (hnodup : (cids l).Nodup) :
    eraseCid s.content_id l =
      l.filter (fun e => !(e.content_id == s.content_id)) := by
  induction l with
  | nil => rfl
  | cons x rest ih =>
    obtain ⟨hxnotin, hrestnd⟩ :=
      List.nodup_cons.mp (show (x.content_id :: cids rest).Nodup from hnodup)
    simp only [eraseCid, List.filter_cons]
    by_cases hxe : (x.content_id == s.content_id) = true
    · have hxeq : x.content_id = s.content_id := by simpa using hxe
      have hfx : (!(x.content_id == s.content_id)) = false := by simp [hxe]
      rw [if_pos hxe, hfx]
      simp only [Bool.false_eq_true, if_false]
      symm
      apply List.filter_eq_self.mpr
      intro e he
      have hne : e.content_id ≠ s.content_id := by
        intro hh
        refine hxnotin ?_
        rw [hxeq, ← hh]
        exact List.mem_map_of_mem (fun e => e.content_id) he
      simp [hne]
    · have hfx : (!(x.content_id == s.content_id)) = true := by simp [hxe]
      rw [if_neg hxe, hfx]
      simp only [if_true]
      rw [ih hrestnd]

theorem length_filter_ne {l : List CacheEntryInfo} {s : CacheEntryInfo}
    (hnodup : (cids l).Nodup) (hmem : s ∈ l) :
    (l.filter (fun e => !(e.content_id == s.content_id))).length =
      l.length - 1 := by
  induction l with
  | nil => simp at hmem
  | cons x rest ih =>
    obtain ⟨hxnotin, hrestnd⟩ :=
      List.nodup_cons.mp (show (x.content_id :: cids rest).Nodup from hnodup)
    by_cases hxe : (x.content_id == s.content_id) = true
    · have hxeq : x.content_id = s.content_id := by simpa using hxe
      have hfx : (!(x.content_id == s.content_id)) = false := by simp [hxe]
      have hall : ∀ e ∈ rest, (!(e.content_id == s.content_id)) = true := by
        intro e he
        have hne : e.content_id ≠ s.content_id := by
          intro hh
          refine hxnotin ?_
          rw [hxeq, ← hh]
          exact List.mem_map_of_mem (fun e => e.content_id) he
        simp [hne]
      simp only [List.filter_cons, hfx, Bool.false_eq_true, if_false,
        List.length_cons]
      rw [List.filter_eq_self.mpr hall]
      omega
    · have hfx : (!(x.content_id == s.content_id)) = true := by simp [hxe]
      have hxne : ¬ x.content_id = s.content_id := by simpa using hxe
      have hsr : s ∈ rest := by
        rcases List.mem_cons.mp hmem with heq | hr
        · exact absurd (by rw [heq]) hxne
        · exact hr
      have hlen := ih hrestnd hsr
      have hpos : 1 ≤ rest.length :=
        List.length_pos.mpr (List.ne_nil_of_mem hsr)
      simp only [List.filter_cons, hfx, if_true, List.length_cons]
      omega

theorem foldl_record_remove (sel : List CacheEntryInfo) :
    ∀ st : CachePolicy, (cids st.entries).Nodup → (cids sel).Nodup →
      (∀ e ∈ sel, e ∈ st.entries) →
      (sel.map (fun e => e.content_id)).foldl CachePolicy.record_remove st =
        { config := st.config
          entries := st.entries.filter
            (fun e => decide (e.content_id ∉ cids sel))
          total_size := st.total_size - sumSizes sel } := by
  induction sel with
  | nil =>
    intro st _ _ _
    have h1 : st.entries.filter
        (fun e => decide (e.content_id ∉ ([] : List ContentId))) =
        st.entries := by
      apply List.filter_eq_self.mpr
      intro a _
      simp
    simp only [cids, List.map_nil, List.foldl_nil, sumSizes_nil,
      Nat.sub_zero, h1]
  | cons s rest ih =>
    intro st hnodup hselnd hmem
    obtain ⟨hsnotin, hrestnd⟩ :=
      List.nodup_cons.mp (show (s.content_id :: cids rest).Nodup from hselnd)
    have hsmem : s ∈ st.entries := hmem s (List.mem_cons_self s rest)
    have hfind := findCid_of_nodup hnodup hsmem
    have hstep : CachePolicy.record_remove st s.content_id =
        { config := st.config
          entries := st.entries.filter
            (fun e => !(e.content_id == s.content_id))
          total_size := st.total_size - s.size } := by
      simp only [CachePolicy.record_remove, hfind]
      rw [eraseCid_eq_filter hnodup]
    have hnodup1 : (cids (st.entries.filter
        (fun e => !(e.content_id == s.content_id)))).Nodup :=
      hnodup.sublist ((List.filter_sublist st.entries).map
        (fun e => e.content_id))
    have hmem1 : ∀ e ∈ rest,
        e ∈ st.entries.filter (fun e => !(e.content_id == s.content_id)) := by
      intro e he
      refine List.mem_filter.mpr ⟨hmem e (List.mem_cons_of_mem s he), ?_⟩
      have hne : e.content_id ≠ s.content_id := by
        intro hh
        exact hsnotin (hh ▸ List.mem_map_of_mem (fun e => e.content_id) he)
      simp [hne]
    have hstep_fold :
        ((s :: rest).map (fun e => e.content_id)).foldl
          CachePolicy.record_remove st =
        (rest.map (fun e => e.content_id)).foldl CachePolicy.record_remove
          (CachePolicy.record_remove st s.content_id) := by
      simp [List.foldl_cons]
    rw [hstep_fold, hstep, ih _ hnodup1 hrestnd hmem1]
    dsimp only
    congr 1
    · rw [List.filter_filter]
      apply List.filter_congr
      intro e _
      by_cases h1 : e.content_id = s.content_id <;>
        by_cases h2 : e.content_id ∈ cids rest <;>
        simp [cids, h1, h2]
    · rw [sumSizes_cons]
      omega

theorem length_filter_not_mem (sel : List CacheEntryInfo) :
    ∀ l : List CacheEntryInfo, (cids l).Nodup → (cids sel).Nodup →
      (∀ e ∈ sel, e ∈ l) →
      (l.filter (fun e => decide (e.content_id ∉ cids sel))).length =
        l.length - sel.length := by
  induction sel with
  | nil =>
    intro l _ _ _
    have h1 : l.filter
        (fun e => decide (e.content_id ∉ cids ([] : List CacheEntryInfo))) =
        l := by
      apply List.filter_eq_self.mpr
      intro a _
      simp [cids]
    rw [h1]
    simp
  | cons s rest ih =>
    intro l hlnd hselnd hmem
    obtain ⟨hsnotin, hrestnd⟩ :=
      List.nodup_cons.mp (show (s.content_id :: cids rest).Nodup from hselnd)
    have hsplit : l.filter (fun e => decide (e.content_id ∉ cids (s :: rest))) =
        (l.filter (fun e => !(e.content_id == s.content_id))).filter
          (fun e => decide (e.content_id ∉ cids rest)) := by
      rw [List.filter_filter]
      apply List.filter_congr
      intro e _
      by_cases h1 : e.content_id = s.content_id <;>
        by_cases h2 : e.content_id ∈ cids rest <;>
        simp [cids, h1, h2]
    rw [hsplit]
    have hsmem : s ∈ l := hmem s (List.mem_cons_self s rest)
    have hnd1 : (cids (l.filter
        (fun e => !(e.content_id == s.content_id)))).Nodup :=
      hlnd.sublist ((List.filter_sublist l).map (fun e => e.content_id))
    have hmem1 : ∀ e ∈ rest,
        e ∈ l.filter (fun e => !(e.content_id == s.content_id)) := by
      intro e he
      refine List.mem_filter.mpr ⟨hmem e (List.mem_cons_of_mem s he), ?_⟩
      have hne : e.content_id ≠ s.content_id := by
        intro hh
        exact hsnotin (hh ▸ List.mem_map_of_mem (fun e => e.content_id) he)
      simp [hne]
    rw [ih _ hnd1 hrestnd hmem1, length_filter_ne hlnd hsmem]
    simp only [List.length_cons]
    omega

theorem floor_target_le (n : Nat) (tu : ℚ) (htu : tu ≤ 1) :
    ⌊(n : ℚ) * tu⌋₊ ≤ n := by
  calc ⌊(n : ℚ) * tu⌋₊ ≤ ⌊(n : ℚ)⌋₊ :=
        Nat.floor_le_floor (mul_le_of_le_one_right (by positivity) htu)
    _ = n := Nat.floor_natCast n

theorem selectInfosWith_convergence (f : CacheEntryInfo → ℚ) (now : Int)
    (st : CachePolicy) (ts te : Nat)
    (hnodup : (cids st.entries).Nodup)
    (hts : ts ≤ st.config.max_size) (hte : te ≤ st.config.max_entries) :
    (((st.selectInfosWith f now ts te).map (fun e => e.content_id)).foldl
        CachePolicy.record_remove st).needs_eviction = false ∨
    (∀ e ∈ (((st.selectInfosWith f now ts te).map (fun e => e.content_id)).foldl
        CachePolicy.record_remove st).entries,
      now - e.created < st.config.min_ttl) := by
  have hperm : List.Perm (st.selectCandidates f now)
      (st.entries.filter (fun e => decide (st.config.min_ttl ≤ now - e.created))) :=
    stableSortBy_perm (policyLess st.config.policy f)
      (st.entries.filter (fun e => decide (st.config.min_ttl ≤ now - e.created)))
  have hw : st.selectInfosWith f now ts te =
      selectInfos (st.total_size - ts) (st.entries.length - te) 0 0
        (st.selectCandidates f now) := rfl
  have hsub : List.Sublist (st.selectInfosWith f now ts te)
      (st.selectCandidates f now) := by
    rw [hw]
    exact selectInfos_sublist _ _ 0 0 _
  have hmem : ∀ e ∈ st.selectInfosWith f now ts te, e ∈ st.entries := by
    intro e he
    exact (List.mem_filter.mp (hperm.mem_iff.mp (hsub.subset he))).1
  have hselnodup : (cids (st.selectInfosWith f now ts te)).Nodup := by
    have h1 : (cids (st.entries.filter
        (fun e => decide (st.config.min_ttl ≤ now - e.created)))).Nodup :=
      hnodup.sublist ((List.filter_sublist st.entries).map
        (fun e => e.content_id))
    have h2 : (cids (st.selectCandidates f now)).Nodup :=
      ((hperm.map (fun e => e.content_id)).nodup_iff).mpr h1
    exact h2.sublist (hsub.map (fun e => e.content_id))
  have hfold := foldl_record_remove (st.selectInfosWith f now ts te) st
    hnodup hselnodup hmem
  rcases selectInfos_spec (st.total_size - ts) (st.entries.length - te) 0 0
      (st.selectCandidates f now) with hall | ⟨hsz, hct⟩
  · right
    intro e he
    rw [hfold] at he
    obtain ⟨hein, hnotin⟩ := List.mem_filter.mp he
    have hnotin2 : e.content_id ∉ cids (st.selectInfosWith f now ts te) :=
      of_decide_eq_true hnotin
    by_contra hge
    have helig : st.config.min_ttl ≤ now - e.created := by omega
    have hecand : e ∈ st.selectCandidates f now :=
      hperm.mem_iff.mpr
        (List.mem_filter.mpr ⟨hein, by simpa using helig⟩)
    have hesel : e ∈ st.selectInfosWith f now ts te := by
      rw [hw, hall]
      exact hecand
    exact hnotin2 (List.mem_map_of_mem (fun e => e.content_id) hesel)
  · left
    have hlen := length_filter_not_mem (st.selectInfosWith f now ts te)
      st.entries hnodup hselnodup hmem
    rw [hfold]
    simp only [CachePolicy.needs_eviction, Bool.or_eq_false_iff,
      decide_eq_false_iff_not, not_lt]
    rw [← hw] at hsz hct
    constructor
    · omega
    · rw [hlen]
      omega

/-- C5: for every policy state whose entries map has duplicate-free content
ids and whose target_utilization is at most one, applying record_remove for
each content id returned by select_evictions (and nothing else) leaves
needs_eviction false, unless every remaining entry is younger than min_ttl
at the selection instant. -/
theorem C5_eviction_convergence (adaptiveScore : CacheEntryInfo → ℚ)
    (now : Int) (st : CachePolicy)
    (hnodup : (cids st.entries).Nodup)
    (htu : st.config.target_utilization ≤ 1) :
    (((st.select_evictions adaptiveScore now).evicted.foldl
        CachePolicy.record_remove st).needs_eviction = false) ∨
    (∀ e ∈ ((st.select_evictions adaptiveScore now).evicted.foldl
        CachePolicy.record_remove st).entries,
      now - e.created < st.config.min_ttl) := by
  by_cases hne : st.needs_eviction = true
  · have hsel_eq : (st.select_evictions adaptiveScore now).evicted =
        (st.selectInfosOf adaptiveScore now).map (fun e => e.content_id) := by
      simp [CachePolicy.select_evictions, hne]
    rw [hsel_eq]
    simp only [CachePolicy.selectInfosOf]
    exact selectInfosWith_convergence adaptiveScore now st _ _ hnodup
      (floor_target_le st.config.max_size st.config.target_utilization htu)
      (floor_target_le st.config.max_entries st.config.target_utilization htu)
  · left
    have hev : (st.select_evictions adaptiveScore now).evicted = [] := by
      simp [CachePolicy.select_evictions, hne]
    rw [hev]
    simp only [List.foldl_nil]
    exact (Bool.not_eq_true _).mp hne

theorem assocGet_none_of_not_mem {β : Type} {k : RStr} {l : List (RStr × β)}
    (h : k ∉ l.map Prod.fst) : assocGet k l = none := by
  induction l with
  | nil => rfl
  | cons kv rest ih =>
    obtain ⟨k2, v⟩ := kv
    simp only [List.map_cons, List.mem_cons, not_or] at h
    simp only [assocGet]
    rw [if_neg (fun he => h.1 he.symm)]
    exact ih h.2

theorem assocGet_remove_self {β : Type} {k : RStr} {l : List (RStr × β)}
    (hnodup : (l.map Prod.fst).Nodup) : assocGet k (assocRemove k l) = none := by
  induction l with
  | nil => rfl
  | cons kv rest ih =>
    obtain ⟨k2, v⟩ := kv
    obtain ⟨hnotin, hnd⟩ := List.nodup_cons.mp
      (show (k2 :: rest.map Prod.fst).Nodup from hnodup)
    simp only [assocRemove]
    by_cases hk : k2 = k
    · rw [if_pos hk]
      apply assocGet_none_of_not_mem
      rw [← hk]
      exact hnotin
    · rw [if_neg hk]
      simp only [assocGet]
      rw [if_neg hk]
      exact ih hnd

theorem getEntryDb_absent_after (now : Int) (st2 : MetadataCacheState)
    (key : RStr) (hnodup : (st2.db.map Prod.fst).Nodup)
    (hdb : dbEntryExpired now st2 key = true) :
    (MetadataCacheState.getEntryDb now st2 key).1 = Except.ok none ∧
    assocGet (entryKey key) (MetadataCacheState.getEntryDb now st2 key).2.db =
      none := by
  unfold dbEntryExpired at hdb
  unfold MetadataCacheState.getEntryDb
  cases hg : assocGet (entryKey key) st2.db with
  | none =>
    dsimp only
    exact ⟨rfl, hg⟩
  | some v =>
    rw [hg] at hdb
    cases v with
    | dirVal d => simp at hdb
    | entryVal c =>
      have hexp : c.is_expired now = true := hdb
      dsimp only
      rw [if_pos hexp]
      exact ⟨rfl, assocGet_remove_self hnodup⟩

/-- C7: when every record cached under a path (in the memory LRU and in the
durable store) carries an expires_at in the past, get_entry reports the path
absent and afterwards the entry key is gone from the durable store, so
subsequent scans do not see it. -/
theorem C7_ttl_expiry (now : Int) (st : MetadataCacheState)
    (path : VirtualPath)
    (hnodup : (st.db.map Prod.fst).Nodup)
    (hdb : dbEntryExpired now st path.to_uri = true)
    (hmem : memEntryExpired now st path.to_uri = true) :
    (st.get_entry now path).1 = Except.ok none ∧
    assocGet (entryKey path.to_uri) (st.get_entry now path).2.db = none := by
  unfold MetadataCacheState.get_entry
  cases hm : assocGet path.to_uri st.memory_cache.map with
  | some c =>
    have hget : st.memory_cache.get path.to_uri =
        (some c, { st.memory_cache with
          order := st.memory_cache.order.filter
            (fun k2 => decide (k2 ≠ path.to_uri)) ++ [path.to_uri] }) := by
      unfold LruCacheM.get
      rw [hm]
    have hexp : c.is_expired now = true := by
      unfold memEntryExpired at hmem
      rw [hm] at hmem
      exact hmem
    rw [hget]
    simp only [hexp, Bool.not_true, Bool.false_eq_true, if_false]
    exact getEntryDb_absent_after now _ path.to_uri hnodup hdb
  | none =>
    have hget : st.memory_cache.get path.to_uri = (none, st.memory_cache) := by
      unfold LruCacheM.get
      rw [hm]
    rw [hget]
    exact getEntryDb_absent_after now _ path.to_uri hnodup hdb

/-- C7 witness: cache an entry at instant 0 with the default one-hour TTL
and query it at instant 4000; the expiry hypotheses hold, the lookup
reports absent and the durable record is gone. -/
theorem C7_ttl_expiry_witness :
    (((MetadataCacheState.put_entry 0 mcState0 childEntry).db.map
        Prod.fst).Nodup ∧
      dbEntryExpired 4000 (MetadataCacheState.put_entry 0 mcState0 childEntry)
        childPath.to_uri = true ∧
      memEntryExpired 4000 (MetadataCacheState.put_entry 0 mcState0 childEntry)
        childPath.to_uri = true) ∧
    (((MetadataCacheState.put_entry 0 mcState0 childEntry).get_entry 4000
        childPath).1 = Except.ok none ∧
      assocGet (entryKey childPath.to_uri)
        ((MetadataCacheState.put_entry 0 mcState0 childEntry).get_entry 4000
          childPath).2.db = none) :=
  ⟨⟨by decide, by decide, by decide⟩,
    C7_ttl_expiry 4000 (MetadataCacheState.put_entry 0 mcState0 childEntry)
      childPath (by decide) (by decide) (by decide)⟩

/-- C2 evaluation at a failing input: invalidate_directory scans the sled
prefix entry:<path>: (with a trailing colon), which matches no child key of
the form entry:<path>/..., and it never touches the memory LRU; a child
entry cached before invalidate_directory of its parent is still returned
present afterwards, and its record is still in the durable store. -/
theorem C2_invalidation_cascade_code_bug :
    ((((MetadataCacheState.put_entry 0 mcState0 childEntry).invalidate_directory
        dirPath).get_entry 1 childPath).1 =
      Except.ok (some (CachedEntry.from_entry 0 childEntry (some 3600)))) ∧
    assocGet (entryKey childPath.to_uri)
        ((MetadataCacheState.put_entry 0 mcState0
          childEntry).invalidate_directory dirPath).db =
      some (DbVal.entryVal (CachedEntry.from_entry 0 childEntry (some 3600))) := by
  exact ⟨by decide, by decide⟩

/-- C3 evaluation at a failing input: clear_backend scans the sled prefixes
entry:<backend>: and dir:<backend>:, but every key begins with
entry:cfk://<backend>/ or dir:cfk://<backend>/, so nothing is deleted from
the durable store; the memory LRU is flushed, yet get_entry still returns
the backend's entry as present from the durable store. -/
theorem C3_clear_backend_code_bug :
    ((((MetadataCacheState.put_entry 0 mcState0 childEntry).clear_backend
        "local".data).get_entry 1 childPath).1 =
      Except.ok (some (CachedEntry.from_entry 0 childEntry (some 3600)))) ∧
    ((MetadataCacheState.put_entry 0 mcState0 childEntry).clear_backend
        "local".data).memory_cache.map = [] := by
  exact ⟨by decide, by decide⟩

/-- C1 evaluation at a failing input: the six raw bytes 01 00 00 00 10 41
are below the compression threshold and are stored verbatim by put, yet get
decodes them as a size-prepended LZ4 frame for the single byte 0x41 and
returns that byte instead of the stored body (verification off here; with
verify_on_read the same read fails CorruptedContent instead). -/
theorem C1_cas_roundtrip_code_bug (hashB : List Nat → ContentId)
    (lz4Block : List Nat → List Nat) :
    blobGet hashB ambigConfig
        (blobPut hashB lz4Block ambigConfig ⟨[]⟩ ambigBytes).2
        (blobPut hashB lz4Block ambigConfig ⟨[]⟩ ambigBytes).1 =
      Except.ok [65] ∧ ambigBytes ≠ [65] := by
  constructor
  · have hput : blobPut hashB lz4Block ambigConfig ⟨[]⟩ ambigBytes =
        (hashB ambigBytes, ⟨[(hashB ambigBytes, ambigBytes)]⟩) := rfl
    rw [hput]
    unfold blobGet
    have hfile : blobGetFile (hashB ambigBytes)
        [(hashB ambigBytes, ambigBytes)] = some ambigBytes := by
      unfold blobGetFile
      rw [if_pos rfl]
    rw [hfile]
    rfl
  · decide

theorem blobGetFile_append_self {cid : ContentId} {v : List Nat}
    {l : List (ContentId × List Nat)} (h : blobGetFile cid l = none) :
    blobGetFile cid (l ++ [(cid, v)]) = some v := by
  induction l with
  | nil =>
    show blobGetFile cid [(cid, v)] = some v
    unfold blobGetFile
    rw [if_pos rfl]
  | cons kv rest ih =>
    obtain ⟨c, d⟩ := kv
    by_cases hc : c = cid
    · exfalso
      unfold blobGetFile at h
      rw [if_pos hc] at h
      exact Option.noConfusion h
    · unfold blobGetFile at h
      rw [if_neg hc] at h
      show blobGetFile cid ((c, d) :: (rest ++ [(cid, v)])) = some v
      unfold blobGetFile
      rw [if_neg hc]
      exact ih h

/-- C9: with compression enabled, put of a new body stores the size-
prepended LZ4 form exactly when the body length is at least
compress_threshold and the compressed encoding is strictly smaller than the
body; otherwise it stores the raw bytes. -/
theorem C9_compression_policy (hashB : List Nat → ContentId)
    (lz4Block : List Nat → List Nat) (cfg : BlobStoreConfig)
    (st : BlobStoreState) (data : List Nat)
    (hc : cfg.compress = true)
    (hnew : blobGetFile (hashB data) st.files = none) :
    blobGetFile (hashB data) (blobPut hashB lz4Block cfg st data).2.files =
      some (if cfg.compress_threshold ≤ data.length then
          (if (compressPrependSize lz4Block data).length < data.length then
            compressPrependSize lz4Block data
          else data)
        else data) := by
  unfold blobPut
  simp only [hnew, Option.isSome_none, Bool.false_eq_true, if_false]
  rw [blobGetFile_append_self hnew]
  unfold storedData
  rw [hc]
  simp only [Bool.true_and]
  by_cases ht : cfg.compress_threshold ≤ data.length
  · rw [decide_eq_true ht]
    simp only [if_true]
    rw [if_pos ht]
  · rw [decide_eq_false ht]
    simp only [Bool.false_eq_true, if_false]
    rw [if_neg ht]

/-- C9 witness: the policy theorem at a concrete seven-byte body, threshold
three, a one-byte block compressor and the identity hash; the stored form
is the five-byte size-prepended compressed encoding. -/
theorem C9_compression_policy_witness :
    c9cfg.compress = true ∧
    blobGetFile (c9hash c9data) (BlobStoreState.mk []).files = none ∧
    blobGetFile (c9hash c9data)
        (blobPut c9hash c9lz4 c9cfg ⟨[]⟩ c9data).2.files =
      some (if c9cfg.compress_threshold ≤ c9data.length then
          (if (compressPrependSize c9lz4 c9data).length < c9data.length then
            compressPrependSize c9lz4 c9data
          else c9data)
        else c9data) :=
  ⟨rfl, rfl, C9_compression_policy c9hash c9lz4 c9cfg ⟨[]⟩ c9data rfl rfl⟩

/-- C5 witness: the convergence theorem applied at a concrete over-budget
Lru state with duplicate-free content ids and target_utilization 9/10. -/
theorem C5_eviction_convergence_witness :
    (cids convState.entries).Nodup ∧
    convState.config.target_utilization ≤ 1 ∧
    ((((convState.select_evictions (fun _ => 0) 100).evicted.foldl
        CachePolicy.record_remove convState).needs_eviction = false) ∨
      (∀ e ∈ ((convState.select_evictions (fun _ => 0) 100).evicted.foldl
          CachePolicy.record_remove convState).entries,
        (100 : Int) - e.created < convState.config.min_ttl)) :=
  ⟨by decide, by norm_num [convState],
    C5_eviction_convergence (fun _ => 0) 100 convState (by decide)
      (by norm_num [convState])⟩

end Cfk
